import Mathlib

/-!
Shallow embedding of `custom_components/nordpool/aio_price.py`.

Time model: Python `datetime` values in this module are always timezone-aware
and are always compared while carrying the *same* cached `tzinfo` object
(`dateutil.tz.gettz` returns a per-name singleton and `astimezone`/`replace`
preserve it).  CPython compares two aware datetimes with the same `tzinfo`
object by their naive local fields, so the embedding represents an absolute
instant as an `Int` and a time zone as a function from instants to naive
local field tuples (`LocalDT`); all comparisons performed by
`join_result_for_correct_time` are lexicographic comparisons of `LocalDT`.
A DST fold is a zone mapping two distinct instants to the same `LocalDT`,
which is exactly what makes the `local == local_end` check in the source
able to fire.
-/

namespace Nordpool

/-- Naive local date-time fields, as produced by `astimezone` under a cached
`tzinfo`.  The calendar date is collapsed to a single day index because
`replace(hour=..., ...)` never alters the date fields. -/
structure LocalDT where
  day : Int
  hour : Nat
  minute : Nat
  second : Nat
  microsecond : Nat
deriving DecidableEq

/-- Python's naive-field comparison of two aware datetimes sharing one
`tzinfo` object: lexicographic on (day, hour, minute, second, microsecond). -/
def LocalDT.leb (a b : LocalDT) : Bool :=
  if a.day = b.day then
    if a.hour = b.hour then
      if a.minute = b.minute then
        if a.second = b.second then decide (a.microsecond ≤ b.microsecond)
        else decide (a.second < b.second)
      else decide (a.minute < b.minute)
    else decide (a.hour < b.hour)
  else decide (a.day < b.day)

/-- Python `datetime.replace(hour=h, minute=m, second=s, microsecond=us)`:
keeps the date fields, sets the time fields. -/
def LocalDT.withTime (a : LocalDT) (h m s us : Nat) : LocalDT :=
  { a with hour := h, minute := m, second := s, microsecond := us }

/-- A time zone: maps an absolute instant to its naive local fields
(the observable part of `astimezone` for same-`tzinfo` comparisons). -/
abbrev Zone := Int → LocalDT

/-- A Python value as held in a record's `value` field: `None`, a number,
positive or negative infinity, or NaN. -/
inductive Value where
  | null : Value
  | num (q : ℚ) : Value
  | inf : Value
  | negInf : Value
  | nan : Value
deriving DecidableEq

/-- Membership in `INVALID_VALUES = frozenset((None, float("inf")))`
(source line 93), under Python `in` semantics (`is` or `==`; NaN is only
equal to itself by identity, and a fresh NaN is not in the set). -/
def isInvalid : Value → Bool
  | .null => true
  | .inf => true
  | _ => false

/-- An opaque metadata value in an area's dictionary (strings such as units,
or numbers such as min/max/average). -/
inductive MetaVal where
  | str (s : String) : MetaVal
  | val (v : Value) : MetaVal
deriving DecidableEq

/-- A Python `dict` with string keys, modelled as an insertion-ordered
association list with unique keys maintained by `dictSet`. -/
abbrev Dict (α : Type) := List (String × α)

/-- Python `d.get(key)` / `d[key]`. -/
def dictLookup {α : Type} : Dict α → String → Option α
  | [], _ => Option.none
  | (k, v) :: rest, key => if k = key then some v else dictLookup rest key

/-- Python `d[key] = v`: overwrite in place (keeping the key's position) or
append a new binding at the end. -/
def dictSet {α : Type} : Dict α → String → α → Dict α
  | [], key, v => [(key, v)]
  | (k, w) :: rest, key, v =>
      if k = key then (k, v) :: rest else (k, w) :: dictSet rest key v

/-- Python `d.update(src)`: set every binding of `src` into `d` in order,
overwriting values of keys already present. -/
def dictUpdate {α : Type} (d src : Dict α) : Dict α :=
  src.foldl (fun acc e => dictSet acc e.1 e.2) d

/-- One parsed price record: `{start, end, value}`, with `start`/`end`
absolute instants. -/
structure PriceRecord where
  start : Int
  end_ : Int
  value : Value
deriving DecidableEq

/-- One area's slice of a parsed raw page: its metadata dictionary plus the
`values` key (present as a record list until the merge `pop`s it). -/
structure AreaData where
  meta : Dict MetaVal
  values : Option (List PriceRecord)
deriving DecidableEq

/-- The `areas` dictionary of one parsed raw page. -/
abbrev Page := Dict AreaData

/-- One area's entry in the merge output `fin["areas"]`: metadata merged so
far plus the accumulated `values` list. -/
structure FinArea where
  meta : Dict MetaVal
  values : List PriceRecord
deriving DecidableEq

/-- The ways `join_result_for_correct_time` can raise:
`InvalidValueException` (line 145), `KeyError` from `pop("values")`
(line 124), or `AttributeError` from `utc.astimezone` when the caller passed
`end_date=None` through `fetch` (line 133 with `dt is None`). -/
inductive MergeError where
  | invalidValue
  | keyError
  | attributeError
deriving DecidableEq

/-- The static area-code → IANA zone-name registry (source lines 17-41). -/
def tzs : Dict String :=
  [("DK1", "Europe/Copenhagen"),
   ("DK2", "Europe/Copenhagen"),
   ("FI", "Europe/Helsinki"),
   ("EE", "Europe/Tallinn"),
   ("LT", "Europe/Vilnius"),
   ("LV", "Europe/Riga"),
   ("Oslo", "Europe/Oslo"),
   ("Kr.sand", "Europe/Oslo"),
   ("Bergen", "Europe/Oslo"),
   ("Molde", "Europe/Oslo"),
   ("Tr.heim", "Europe/Oslo"),
   ("Tromsø", "Europe/Oslo"),
   ("SE1", "Europe/Stockholm"),
   ("SE2", "Europe/Stockholm"),
   ("SE3", "Europe/Stockholm"),
   ("SE4", "Europe/Stockholm"),
   ("SYS", "Europe/Stockholm"),
   ("FR", "Europe/Paris"),
   ("NL", "Europe/Amsterdam"),
   ("BE", "Europe/Brussels"),
   ("AT", "Europe/Vienna"),
   ("DE-LU", "Europe/Berlin")]

/-- The derived peak-period metadata keys stamped by `add_junk`. -/
def junkKeys : List String :=
  ["Average", "Min", "Max", "Off-peak 1", "Off-peak 2", "Peak"]

/-- Modelled from the spec: `add_junk` is imported from
`custom_components/nordpool/misc.py`, which is not among the provided
sources.  Section 4.3 of the spec describes it as "a value-augmentation step
... that stamps derived junk/placeholder peak-period fields the downstream
consumer recomputes itself".  It is modelled as overwriting each derived
peak-period metadata key with the invalid placeholder, in place, on the
area's dictionary. -/
def add_junk (d : Dict MetaVal) : Dict MetaVal :=
  junkKeys.foldl (fun acc k => dictSet acc k (MetaVal.val Value.inf)) d

/-- Source line 133-135: `utc.astimezone(zone).replace(hour=0, minute=0,
second=0, microsecond=0)`. -/
def sodOf (zone : Zone) (utc : Int) : LocalDT :=
  (zone utc).withTime 0 0 0 0

/-- Source line 136-138: `utc.astimezone(zone).replace(hour=23, minute=59,
second=59, microsecond=999999)`. -/
def eodOf (zone : Zone) (utc : Int) : LocalDT :=
  (zone utc).withTime 23 59 59 999999

/-- Source line 143: `start_of_day <= local and local <= end_of_day`. -/
def inRangeb (zone : Zone) (sod eod : LocalDT) (v : PriceRecord) : Bool :=
  LocalDT.leb sod (zone v.start) && LocalDT.leb (zone v.start) eod

/-- The inner `for val in values` loop (source lines 140-152): keep in-range
records, raising `InvalidValueException` on an in-range invalid value and
skipping in-range records whose local start equals their local end. -/
def filterValues (zone : Zone) (sod eod : LocalDT) :
    List PriceRecord → Except MergeError (List PriceRecord)
  | [] => Except.ok []
  | v :: rest =>
    if inRangeb zone sod eod v then
      if isInvalid v.value then Except.error MergeError.invalidValue
      else if zone v.start = zone v.end_ then filterValues zone sod eod rest
      else
        match filterValues zone sod eod rest with
        | Except.ok kept => Except.ok (v :: kept)
        | Except.error e => Except.error e
    else filterValues zone sod eod rest

/-- One iteration of the per-area loop body (source lines 110-152) for the
entry `(key, ad)` of one page: zone lookup and skip, `add_junk`, the
`pop("values")` mutation, metadata `update`, day-bound computation and the
record loop.  Returns the new accumulator (or the raised error) together
with the final state of this page entry, since the source mutates the input
page in place. -/
def processAreaEntry (gettz : String → Zone) (dt : Option Int)
    (fin : Dict FinArea) (key : String) (ad : AreaData) :
    Except MergeError (Dict FinArea) × AreaData :=
  match dictLookup tzs key with
  | Option.none => (Except.ok fin, ad)
  | some zname =>
    let zone := gettz zname
    let meta1 := add_junk ad.meta
    match ad.values with
    | Option.none => (Except.error MergeError.keyError, ⟨meta1, Option.none⟩)
    | some vs =>
      let ad1 : AreaData := ⟨meta1, Option.none⟩
      let fa0 : FinArea := (dictLookup fin key).getD ⟨[], []⟩
      let fa1 : FinArea := ⟨dictUpdate fa0.meta meta1, fa0.values⟩
      match dt with
      | Option.none => (Except.error MergeError.attributeError, ad1)
      | some utc =>
        match filterValues zone (sodOf zone utc) (eodOf zone utc) vs with
        | Except.error e => (Except.error e, ad1)
        | Except.ok kept =>
          (Except.ok (dictSet fin key ⟨fa1.meta, fa1.values ++ kept⟩), ad1)

/-- The per-page loop `for key, value in day_.get("areas", {}).items()`
(source line 110), threading the accumulator and returning the final state
of the page (entries after a raised error keep their pre-merge state). -/
def processPage (gettz : String → Zone) (dt : Option Int) :
    Dict FinArea → Page → Except MergeError (Dict FinArea) × Page
  | fin, [] => (Except.ok fin, [])
  | fin, (key, ad) :: rest =>
    match processAreaEntry gettz dt fin key ad with
    | (Except.error e, ad1) => (Except.error e, (key, ad1) :: rest)
    | (Except.ok fin1, ad1) =>
      let r := processPage gettz dt fin1 rest
      (r.1, (key, ad1) :: r.2)

/-- The outer `for day_ in results` loop (source line 109). -/
def joinPages (gettz : String → Zone) (dt : Option Int) :
    Dict FinArea → List Page → Except MergeError (Dict FinArea) × List Page
  | fin, [] => (Except.ok fin, [])
  | fin, p :: ps =>
    match processPage gettz dt fin p with
    | (Except.error e, p1) => (Except.error e, p1 :: ps)
    | (Except.ok fin1, p1) =>
      let r := joinPages gettz dt fin1 ps
      (r.1, p1 :: r.2)

/-- `join_result_for_correct_time(results, dt)` (source lines 100-154),
parameterised by the external zone database `gettz`.  `dt` is `Option Int`
because `AioPrices.fetch` forwards its `end_date` argument unchanged, which
is `None` when the caller omitted it.  The first component is the returned
`fin` or the raised exception; the second is the final (mutated) state of
the input pages. -/
def join_result_for_correct_time (gettz : String → Zone) (results : List Page)
    (dt : Option Int) : Except MergeError (Dict FinArea) × List Page :=
  joinPages gettz dt [] results

/-- The data path of `AioPrices.fetch` (source lines 215-233) after the three
window pages have been fetched and parsed: the caller-supplied `end_date` is
forwarded unchanged — in particular still absent when the caller omitted it —
into `join_result_for_correct_time(raw, end_date)` (line 233). -/
def fetch_merge (gettz : String → Zone) (raw : List Page)
    (end_date : Option Int) : Except MergeError (Dict FinArea) × List Page :=
  join_result_for_correct_time gettz raw end_date

/-- Exception kinds relevant to the retry decorator on `AioPrices.fetch`
(source lines 190-193). -/
inductive PyException where
  | clientError
  | keyError
  | attributeError
  | invalidValueException
deriving DecidableEq

/-- The Python exception corresponding to each merge failure. -/
def raisedException : MergeError → PyException
  | MergeError.invalidValue => PyException.invalidValueException
  | MergeError.keyError => PyException.keyError
  | MergeError.attributeError => PyException.attributeError

/-- `backoff.on_exception(backoff.expo, (aiohttp.ClientError, KeyError), ...)`
(source lines 190-193): only these exception kinds are retried. -/
def backoffRetries : PyException → Bool
  | PyException.clientError => true
  | PyException.keyError => true
  | _ => false

/-! Numeric normalizer: `AioPrices._conv_to_float` (source lines 265-270)
computes `float(s.replace(",", ".").replace(" ", ""))`, returning
`float("inf")` on `ValueError`.  `pyFloat` models CPython `float(str)` on
strings: optional surrounding whitespace, optional sign, either a special
word (`inf`/`infinity`/`nan`, case-insensitive) or a decimal mantissa with
optional fraction and optional exponent, with single underscores permitted
between digits. -/

/-- Python `s.replace(a, b)` for one-character `a`, `b`. -/
def replaceChar (a b : Char) (cs : List Char) : List Char :=
  cs.map (fun c => if c = a then b else c)

/-- Python `s.replace(a, "")` for a one-character `a`. -/
def removeChar (a : Char) (cs : List Char) : List Char :=
  cs.filter (fun c => c != a)

/-- Strip leading and trailing whitespace, as `float(str)` does. -/
def pyStrip (cs : List Char) : List Char :=
  ((cs.dropWhile Char.isWhitespace).reverse.dropWhile Char.isWhitespace).reverse

/-- Consume a digit run (single underscores allowed between digits),
returning (accumulated value, digit count, remaining characters). -/
def digitsCore : List Char → Nat → Nat → Nat × Nat × List Char
  | [], acc, n => (acc, n, [])
  | c :: rest, acc, n =>
    if c.isDigit then digitsCore rest (acc * 10 + (c.toNat - 48)) (n + 1)
    else if c = '_' ∧ n ≠ 0 then
      match rest with
      | d :: _ => if d.isDigit then digitsCore rest acc n else (acc, n, c :: rest)
      | [] => (acc, n, c :: rest)
    else (acc, n, c :: rest)

/-- Assemble the parsed rational: sign, integer part, fraction digits,
exponent. -/
def mkNum (neg : Bool) (ip fp nf : Nat) (eneg : Bool) (ev : Nat) : Value :=
  let n : Int := (ip * 10 ^ nf + fp : Nat)
  let n : Int := if neg then -n else n
  Value.num (if eneg then mkRat n (10 ^ (nf + ev)) else mkRat (n * 10 ^ ev) (10 ^ nf))

/-- Parse the digit run after `e` and require the end of input. -/
def parseExpDigits (neg : Bool) (ip fp nf : Nat) (eneg : Bool)
    (r : List Char) : Option Value :=
  match digitsCore r 0 0 with
  | (ev, ne, rest) =>
    if ne = 0 ∨ rest ≠ [] then Option.none
    else some (mkNum neg ip fp nf eneg ev)

/-- Parse an optional exponent; `ndigits` is the total count of mantissa
digits, which must be positive. -/
def parseExp (neg : Bool) (ip fp nf : Nat) (ndigits : Nat)
    (cs : List Char) : Option Value :=
  if ndigits = 0 then Option.none
  else
    match cs with
    | [] => some (mkNum neg ip fp nf false 0)
    | 'e' :: r =>
      match r with
      | '+' :: r2 => parseExpDigits neg ip fp nf false r2
      | '-' :: r2 => parseExpDigits neg ip fp nf true r2
      | _ => parseExpDigits neg ip fp nf false r
    | _ => Option.none

/-- Parse an optional fraction after the integer part. -/
def parseTail (neg : Bool) (ip ni : Nat) (cs : List Char) : Option Value :=
  match cs with
  | '.' :: r =>
    match digitsCore r 0 0 with
    | (fp, nf, cs2) => parseExp neg ip fp nf (ni + nf) cs2
  | _ => parseExp neg ip 0 0 ni cs

/-- Parse the body after the optional sign. -/
def pyFloatBody (neg : Bool) (cs : List Char) : Option Value :=
  if cs = ['i', 'n', 'f'] ∨ cs = ['i', 'n', 'f', 'i', 'n', 'i', 't', 'y'] then
    some (if neg then Value.negInf else Value.inf)
  else if cs = ['n', 'a', 'n'] then some Value.nan
  else
    match digitsCore cs 0 0 with
    | (ip, ni, cs1) => parseTail neg ip ni cs1

/-- CPython `float(str)` on a string, as `Option`: `Option.none` models a
raised `ValueError`. -/
def pyFloat (s : List Char) : Option Value :=
  let cs := (pyStrip s).map Char.toLower
  match cs with
  | '+' :: r => pyFloatBody false r
  | '-' :: r => pyFloatBody true r
  | r => pyFloatBody false r

/-- `AioPrices._conv_to_float` (source lines 265-270):
`float(s.replace(",", ".").replace(" ", ""))` with `ValueError` mapped to
`float("inf")`. -/
def _conv_to_float (s : String) : Value :=
  match pyFloat (removeChar ' ' (replaceChar ',' '.' s.data)) with
  | some v => v
  | Option.none => Value.inf

/-! Specification-side vocabulary used to state properties of the merge. -/

/-- A record passes the inner loop's filter: in range and its local start
differs from its local end. -/
def keepb (zone : Zone) (sod eod : LocalDT) (v : PriceRecord) : Bool :=
  inRangeb zone sod eod v && !(decide (zone v.start = zone v.end_))

/-- The records of one value list that the inner loop appends. -/
def keptList (zone : Zone) (sod eod : LocalDT) (vs : List PriceRecord) :
    List PriceRecord :=
  vs.filter (keepb zone sod eod)

/-- Concatenation of a list of lists. -/
def catLists {α : Type} : List (List α) → List α
  | [] => []
  | l :: ls => l ++ catLists ls

/-- The area-data occurrences of `key` within one page, in page order. -/
def pageOccs (key : String) (p : Page) : List AreaData :=
  (p.filter (fun e => e.1 == key)).map (fun e => e.2)

/-- The area-data occurrences of `key` across all pages, in merge order. -/
def areaOccs (key : String) (pages : List Page) : List AreaData :=
  catLists (pages.map (pageOccs key))

/-- The effect of one area occurrence on an accumulated `FinArea`:
`dict.update` with the junk-stamped metadata, and appending the kept
records. -/
def extendFA (zone : Zone) (sod eod : LocalDT) (fa : FinArea)
    (ad : AreaData) : FinArea :=
  ⟨dictUpdate fa.meta (add_junk ad.meta),
   fa.values ++ keptList zone sod eod (ad.values.getD [])⟩

/-- `extendFA` lifted to the optional entry in `fin["areas"]` (a first
occurrence starts from the fresh empty dictionary). -/
def extendOpt (zone : Zone) (sod eod : LocalDT) (o : Option FinArea)
    (ad : AreaData) : Option FinArea :=
  some (extendFA zone sod eod (o.getD ⟨[], []⟩) ad)

/-- Folding `dict.update` of junk-stamped metadata over a list of
occurrences. -/
def metaFold (d : Dict MetaVal) (occs : List AreaData) : Dict MetaVal :=
  occs.foldl (fun acc ad => dictUpdate acc (add_junk ad.meta)) d

/-- Concatenated kept records over a list of occurrences. -/
def keptCat (zone : Zone) (sod eod : LocalDT) (occs : List AreaData) :
    List PriceRecord :=
  catLists (occs.map (fun ad => keptList zone sod eod (ad.values.getD [])))

/-- The in-place mutation the merge performs on a known-zone page entry:
metadata junk-stamped and the `values` key removed; unknown-zone entries are
untouched. -/
def mutateEntry (e : String × AreaData) : String × AreaData :=
  if (dictLookup tzs e.1).isSome then
    (e.1, ⟨add_junk e.2.meta, Option.none⟩)
  else e

/-- Every area entry of every page still carries its `values` key, as the
page-parser contract guarantees for freshly parsed pages. -/
def wellFormedPages (results : List Page) : Prop :=
  ∀ p ∈ results, ∀ e ∈ p, (e : String × AreaData).2.values.isSome = true

/-! Concrete fixtures used by witnesses and counterexamples. -/

/-- A concrete zone for witnesses: instant `i` falls on day `i / 24` at hour
`i % 24`. -/
def testZone : Zone := fun i =>
  { day := i / 24, hour := (i % 24).toNat, minute := 0, second := 0,
    microsecond := 0 }

/-- A concrete zone database mapping every zone name to `testZone`. -/
def testGettz : String → Zone := fun _ => testZone

/-- A record at hours 5-6 of day 0 with a valid price. -/
def rec1 : PriceRecord := ⟨5, 6, Value.num 1⟩

/-- A one-area page: SE1 with one metadata field and one valid record. -/
def testPage : Page := [("SE1", ⟨[("Unit", MetaVal.str "EUR")], some [rec1]⟩)]

def testOut := join_result_for_correct_time testGettz [testPage] (some 12)

def testFin : Dict FinArea :=
  match testOut.1 with
  | Except.ok f => f
  | Except.error _ => []

def testFA : FinArea := (dictLookup testFin "SE1").getD ⟨[], []⟩

/-- A page whose SE1 value list repeats across pages in the C2
counterexample. -/
def cexPage : Page := [("SE1", ⟨[], some [rec1]⟩)]

def cexOut := join_result_for_correct_time testGettz [cexPage, cexPage, cexPage] (some 12)

def cexFin : Dict FinArea :=
  match cexOut.1 with
  | Except.ok f => f
  | Except.error _ => []

def cexFA : FinArea := (dictLookup cexFin "SE1").getD ⟨[], []⟩

/-- Three pages carrying the same non-junk metadata key with different
values, for the C4 counterexample. -/
def c4Page1 : Page := [("SE1", ⟨[("Unit", MetaVal.str "A")], some []⟩)]

def c4Page2 : Page := [("SE1", ⟨[("Unit", MetaVal.str "B")], some []⟩)]

def c4Page3 : Page := [("SE1", ⟨[("Unit", MetaVal.str "C")], some []⟩)]

def c4Out := join_result_for_correct_time testGettz [c4Page1, c4Page2, c4Page3] (some 12)

def c4Fin : Dict FinArea :=
  match c4Out.1 with
  | Except.ok f => f
  | Except.error _ => []

def c4FA : FinArea := (dictLookup c4Fin "SE1").getD ⟨[], []⟩

/-- A page with an in-range record carrying the `None` sentinel. -/
def c3Page : Page := [("SE1", ⟨[("Unit", MetaVal.str "EUR")], some [⟨5, 6, Value.null⟩]⟩)]

def c3Out := join_result_for_correct_time testGettz [c3Page] (some 12)

/-- A page containing an unknown area code alongside a known one. -/
def mixPage : Page :=
  [("XX", ⟨[("Unit", MetaVal.str "EUR")], some [rec1]⟩),
   ("SE1", ⟨[("Unit", MetaVal.str "EUR")], some [rec1]⟩)]

def mixOut := join_result_for_correct_time testGettz [mixPage] (some 12)

def mixFin : Dict FinArea :=
  match mixOut.1 with
  | Except.ok f => f
  | Except.error _ => []

/-- A two-page input whose merge aborts at the second entry of the second
page: the first page and the second page's first entry are processed before
the invalid value is hit, and a third entry is still pending, for the C10
witness. -/
def abort2Pages : List Page :=
  [[("FI", ⟨[("Unit", MetaVal.str "EUR")], some [rec1]⟩)],
   [("SE1", ⟨[("Unit", MetaVal.str "EUR")], some [rec1]⟩),
    ("DK1", ⟨[], some [⟨5, 6, Value.null⟩]⟩),
    ("EE", ⟨[], some [rec1]⟩)]]

def abort2Out := join_result_for_correct_time testGettz abort2Pages (some 12)

/-- `fetch` called without `end_date` forwards `None` to the merge. -/
def c9Out := fetch_merge testGettz [testPage] Option.none

/-! Dictionary lemmas. -/

theorem dictLookup_dictSet_self {α : Type} (d : Dict α) (k : String) (v : α) :
    dictLookup (dictSet d k v) k = some v := by
  induction d with
  | nil => simp [dictSet, dictLookup]
  | cons e rest ih =>
    obtain ⟨k1, w⟩ := e
    by_cases h : k1 = k
    · simp [dictSet, h, dictLookup]
    · simp [dictSet, h, dictLookup, ih]

theorem dictLookup_dictSet_ne {α : Type} (d : Dict α) (k k' : String) (v : α)
    (h : k' ≠ k) : dictLookup (dictSet d k v) k' = dictLookup d k' := by
  induction d with
  | nil =>
    have hk : ¬(k = k') := fun e => h e.symm
    simp [dictSet, dictLookup, hk]
  | cons e rest ih =>
    obtain ⟨k1, w⟩ := e
    have hkk : ¬(k = k') := fun e => h e.symm
    by_cases h1 : k1 = k
    · have h2 : ¬(k1 = k') := fun e => h (h1 ▸ e).symm
      simp [dictSet, h1, dictLookup, h2, hkk]
    · by_cases h2 : k1 = k'
      · simp [dictSet, h1, dictLookup, h2, h]
      · simp [dictSet, h1, dictLookup, h2, ih]

/-! List helper lemmas. -/

theorem mem_catLists {α : Type} (ls : List (List α)) (a : α) :
    a ∈ catLists ls ↔ ∃ l ∈ ls, a ∈ l := by
  induction ls with
  | nil => simp [catLists]
  | cons l rest ih => simp [catLists, ih]

theorem catLists_cons {α : Type} (l : List α) (ls : List (List α)) :
    catLists (l :: ls) = l ++ catLists ls := rfl

/-! Inversion lemmas for the inner record loop. -/

theorem filterValues_ok (zone : Zone) (sod eod : LocalDT) :
    ∀ (vs l : List PriceRecord), filterValues zone sod eod vs = Except.ok l →
      l = keptList zone sod eod vs ∧
      ∀ v ∈ vs, inRangeb zone sod eod v = true → isInvalid v.value = false := by
  intro vs
  induction vs with
  | nil =>
    intro l h
    simp only [filterValues, Except.ok.injEq] at h
    subst h
    simp [keptList]
  | cons v rest ih =>
    intro l h
    by_cases hr : inRangeb zone sod eod v = true
    · by_cases hi : isInvalid v.value = true
      · simp [filterValues, hr, hi] at h
      · have hi' : isInvalid v.value = false := by
          cases hval : isInvalid v.value
          · rfl
          · exact absurd hval hi
        by_cases he : zone v.start = zone v.end_
        · simp only [filterValues, hr, if_true, hi', Bool.false_eq_true,
            if_false, he, if_true] at h
          obtain ⟨hl, hrest⟩ := ih l h
          refine ⟨?_, ?_⟩
          · rw [hl]
            simp [keptList, keepb, List.filter_cons, hr, he]
          · intro w hw hwr
            rcases List.mem_cons.mp hw with hweq | hw'
            · subst hweq; exact hi'
            · exact hrest w hw' hwr
        · cases hres : filterValues zone sod eod rest with
          | ok kept =>
            simp only [filterValues, hr, if_true, hi', Bool.false_eq_true,
              if_false, he, hres, Except.ok.injEq] at h
            obtain ⟨hk, hrest⟩ := ih kept hres
            refine ⟨?_, ?_⟩
            · rw [← h, hk]
              simp [keptList, keepb, List.filter_cons, hr, he]
            · intro w hw hwr
              rcases List.mem_cons.mp hw with hweq | hw'
              · subst hweq; exact hi'
              · exact hrest w hw' hwr
          | error e =>
            simp [filterValues, hr, hi', he, hres] at h
    · have hr' : inRangeb zone sod eod v = false := by
        cases hval : inRangeb zone sod eod v
        · rfl
        · exact absurd hval hr
      simp only [filterValues, hr', Bool.false_eq_true, if_false] at h
      obtain ⟨hl, hrest⟩ := ih l h
      refine ⟨?_, ?_⟩
      · rw [hl]
        simp [keptList, keepb, List.filter_cons, hr']
      · intro w hw hwr
        rcases List.mem_cons.mp hw with hweq | hw'
        · subst hweq; exact absurd hwr hr
        · exact hrest w hw' hwr

theorem filterValues_error_kind (zone : Zone) (sod eod : LocalDT) :
    ∀ (vs : List PriceRecord) (e : MergeError),
      filterValues zone sod eod vs = Except.error e → e = MergeError.invalidValue := by
  intro vs
  induction vs with
  | nil => intro e h; simp [filterValues] at h
  | cons v rest ih =>
    intro e h
    by_cases hr : inRangeb zone sod eod v = true
    · by_cases hi : isInvalid v.value = true
      · simp only [filterValues, hr, if_true, hi, Except.error.injEq] at h
        exact h.symm
      · have hi' : isInvalid v.value = false := by
          cases hval : isInvalid v.value
          · rfl
          · exact absurd hval hi
        by_cases he : zone v.start = zone v.end_
        · simp only [filterValues, hr, if_true, hi', Bool.false_eq_true,
            if_false, he, if_true] at h
          exact ih e h
        · cases hres : filterValues zone sod eod rest with
          | ok kept =>
            simp [filterValues, hr, hi', he, hres] at h
          | error e2 =>
            simp only [filterValues, hr, if_true, hi', Bool.false_eq_true,
              if_false, he, hres, Except.error.injEq] at h
            subst h
            exact ih e2 hres
    · have hr' : inRangeb zone sod eod v = false := by
        cases hval : inRangeb zone sod eod v
        · rfl
        · exact absurd hval hr
      simp only [filterValues, hr', Bool.false_eq_true, if_false] at h
      exact ih e h

theorem filterValues_error_of_invalid (zone : Zone) (sod eod : LocalDT) :
    ∀ (vs : List PriceRecord) (v : PriceRecord), v ∈ vs →
      inRangeb zone sod eod v = true → isInvalid v.value = true →
      ∃ e, filterValues zone sod eod vs = Except.error e := by
  intro vs
  induction vs with
  | nil => intro v hv; simp at hv
  | cons w rest ih =>
    intro v hv hr hi
    rcases List.mem_cons.mp hv with hveq | hv'
    · subst hveq
      exact ⟨MergeError.invalidValue, by simp [filterValues, hr, hi]⟩
    · by_cases hwr : inRangeb zone sod eod w = true
      · by_cases hwi : isInvalid w.value = true
        · exact ⟨MergeError.invalidValue, by simp [filterValues, hwr, hwi]⟩
        · have hwi' : isInvalid w.value = false := by
            cases hval : isInvalid w.value
            · rfl
            · exact absurd hval hwi
          obtain ⟨e, he⟩ := ih v hv' hr hi
          by_cases hwe : zone w.start = zone w.end_
          · exact ⟨e, by simp [filterValues, hwr, hwi', hwe, he]⟩
          · exact ⟨e, by simp [filterValues, hwr, hwi', hwe, he]⟩
      · have hwr' : inRangeb zone sod eod w = false := by
          cases hval : inRangeb zone sod eod w
          · rfl
          · exact absurd hval hwr
        obtain ⟨e, he⟩ := ih v hv' hr hi
        exact ⟨e, by simp [filterValues, hwr', he]⟩

/-! Inversion lemmas for one per-area iteration. -/

theorem processAreaEntry_unknown (gettz : String → Zone) (dt : Option Int)
    (fin : Dict FinArea) (key : String) (ad : AreaData)
    (hz : dictLookup tzs key = Option.none) :
    processAreaEntry gettz dt fin key ad = (Except.ok fin, ad) := by
  simp [processAreaEntry, hz]

theorem processAreaEntry_known_snd (gettz : String → Zone) (dt : Option Int)
    (fin : Dict FinArea) (key : String) (ad : AreaData) (zname : String)
    (hz : dictLookup tzs key = some zname) :
    (processAreaEntry gettz dt fin key ad).2 = ⟨add_junk ad.meta, Option.none⟩ := by
  cases hv : ad.values with
  | none => simp [processAreaEntry, hz, hv]
  | some vs =>
    cases dt with
    | none => simp [processAreaEntry, hz, hv]
    | some utc =>
      cases hf : filterValues (gettz zname) (sodOf (gettz zname) utc)
          (eodOf (gettz zname) utc) vs with
      | ok kept => simp [processAreaEntry, hz, hv, hf]
      | error e => simp [processAreaEntry, hz, hv, hf]

theorem processAreaEntry_ok_inv (gettz : String → Zone) (dt : Option Int)
    (fin : Dict FinArea) (key : String) (ad : AreaData)
    (fin1 : Dict FinArea) (ad1 : AreaData)
    (h : processAreaEntry gettz dt fin key ad = (Except.ok fin1, ad1)) :
    (dictLookup tzs key = Option.none ∧ fin1 = fin ∧ ad1 = ad) ∨
    (∃ zname vs utc kept,
      dictLookup tzs key = some zname ∧ ad.values = some vs ∧ dt = some utc ∧
      filterValues (gettz zname) (sodOf (gettz zname) utc)
        (eodOf (gettz zname) utc) vs = Except.ok kept ∧
      fin1 = dictSet fin key
        ⟨dictUpdate ((dictLookup fin key).getD ⟨[], []⟩).meta (add_junk ad.meta),
         ((dictLookup fin key).getD ⟨[], []⟩).values ++ kept⟩ ∧
      ad1 = ⟨add_junk ad.meta, Option.none⟩) := by
  cases hz : dictLookup tzs key with
  | none =>
    rw [processAreaEntry_unknown gettz dt fin key ad hz] at h
    left
    obtain ⟨h1, h2⟩ := Prod.mk.injEq .. ▸ h
    exact ⟨rfl, (Except.ok.injEq .. ▸ h1).symm, h2.symm⟩
  | some zname =>
    right
    cases hv : ad.values with
    | none => simp [processAreaEntry, hz, hv] at h
    | some vs =>
      cases hdt : dt with
      | none => simp [processAreaEntry, hz, hv, hdt] at h
      | some utc =>
        cases hf : filterValues (gettz zname) (sodOf (gettz zname) utc)
            (eodOf (gettz zname) utc) vs with
        | error e => simp [processAreaEntry, hz, hv, hdt, hf] at h
        | ok kept =>
          simp only [processAreaEntry, hz, hv, hdt, hf, Prod.mk.injEq,
            Except.ok.injEq] at h
          exact ⟨zname, vs, utc, kept, rfl, rfl, rfl, hf, h.1.symm, h.2.symm⟩

theorem processAreaEntry_error_inv (gettz : String → Zone) (dt : Option Int)
    (fin : Dict FinArea) (key : String) (ad : AreaData)
    (e : MergeError) (ad1 : AreaData)
    (h : processAreaEntry gettz dt fin key ad = (Except.error e, ad1)) :
    (e = MergeError.keyError ∧ ad.values = Option.none) ∨
    (e = MergeError.attributeError ∧ dt = Option.none) ∨
    e = MergeError.invalidValue := by
  cases hz : dictLookup tzs key with
  | none =>
    rw [processAreaEntry_unknown gettz dt fin key ad hz] at h
    exact absurd (congrArg Prod.fst h) (by simp)
  | some zname =>
    cases hv : ad.values with
    | none =>
      simp only [processAreaEntry, hz, hv, Prod.mk.injEq, Except.error.injEq] at h
      exact Or.inl ⟨h.1.symm, rfl⟩
    | some vs =>
      cases hdt : dt with
      | none =>
        simp only [processAreaEntry, hz, hv, hdt, Prod.mk.injEq,
          Except.error.injEq] at h
        exact Or.inr (Or.inl ⟨h.1.symm, rfl⟩)
      | some utc =>
        cases hf : filterValues (gettz zname) (sodOf (gettz zname) utc)
            (eodOf (gettz zname) utc) vs with
        | error e2 =>
          simp only [processAreaEntry, hz, hv, hdt, hf, Prod.mk.injEq,
            Except.error.injEq] at h
          exact Or.inr (Or.inr
            (h.1 ▸ filterValues_error_kind _ _ _ vs e2 hf))
        | ok kept => simp [processAreaEntry, hz, hv, hdt, hf] at h

/-! Per-page lemmas. -/

theorem processPage_ok_lookup_known (gettz : String → Zone) (utc : Int)
    (key zname : String) (hz : dictLookup tzs key = some zname) :
    ∀ (p : Page) (fin fin1 : Dict FinArea),
      (processPage gettz (some utc) fin p).1 = Except.ok fin1 →
      dictLookup fin1 key =
        List.foldl
          (extendOpt (gettz zname) (sodOf (gettz zname) utc)
            (eodOf (gettz zname) utc))
          (dictLookup fin key) (pageOccs key p) := by
  intro p
  induction p with
  | nil =>
    intro fin fin1 h
    simp only [processPage] at h
    injection h with h
    subst h
    simp [pageOccs]
  | cons entry rest ih =>
    obtain ⟨k, ad⟩ := entry
    intro fin fin1 h
    cases hpe : processAreaEntry gettz (some utc) fin k ad with
    | mk r ad1 =>
      cases r with
      | error e => simp [processPage, hpe] at h
      | ok fin2 =>
        simp only [processPage, hpe] at h
        have hrec := ih fin2 fin1 h
        by_cases hk : k = key
        · subst hk
          rcases processAreaEntry_ok_inv gettz (some utc) fin k ad fin2 ad1 hpe with
            ⟨hznone, _, _⟩ | ⟨zname2, vs, utc2, kept, hz2, hv, hdt, hf, hfin2, _⟩
          · rw [hz] at hznone
            exact Option.noConfusion hznone
          · rw [hz] at hz2
            injection hz2 with hzeq
            subst hzeq
            injection hdt with hdteq
            subst hdteq
            have hkept : kept = keptList (gettz zname) (sodOf (gettz zname) utc)
                (eodOf (gettz zname) utc) vs :=
              (filterValues_ok (gettz zname) _ _ vs kept hf).1
            have hocc : pageOccs k ((k, ad) :: rest) = ad :: pageOccs k rest := by
              simp [pageOccs, List.filter_cons]
            rw [hrec, hfin2, hocc, List.foldl_cons,
              dictLookup_dictSet_self, extendOpt, extendFA, hv, hkept]
            rfl
        · have hkk : key ≠ k := fun e => hk e.symm
          have hocc : pageOccs key ((k, ad) :: rest) = pageOccs key rest := by
            simp [pageOccs, List.filter_cons, hk]
          rcases processAreaEntry_ok_inv gettz (some utc) fin k ad fin2 ad1 hpe with
            ⟨_, hfin2, _⟩ | ⟨zname2, vs, utc2, kept, hz2, hv, hdt, hf, hfin2, _⟩
          · subst hfin2
            rw [hrec, hocc]
          · rw [hfin2, dictLookup_dictSet_ne _ _ _ _ hkk] at hrec
            rw [hrec, hocc]

theorem processPage_ok_lookup_unknown (gettz : String → Zone) (dt : Option Int)
    (key : String) (hz : dictLookup tzs key = Option.none) :
    ∀ (p : Page) (fin fin1 : Dict FinArea),
      (processPage gettz dt fin p).1 = Except.ok fin1 →
      dictLookup fin1 key = dictLookup fin key := by
  intro p
  induction p with
  | nil =>
    intro fin fin1 h
    simp only [processPage] at h
    injection h with h
    subst h
    rfl
  | cons entry rest ih =>
    obtain ⟨k, ad⟩ := entry
    intro fin fin1 h
    cases hpe : processAreaEntry gettz dt fin k ad with
    | mk r ad1 =>
      cases r with
      | error e => simp [processPage, hpe] at h
      | ok fin2 =>
        simp only [processPage, hpe] at h
        have hrec := ih fin2 fin1 h
        rcases processAreaEntry_ok_inv gettz dt fin k ad fin2 ad1 hpe with
          ⟨_, hfin2, _⟩ | ⟨zname2, vs, utc2, kept, hz2, hv, hdt, hf, hfin2, _⟩
        · subst hfin2
          exact hrec
        · have hkk : key ≠ k := by
            intro e
            rw [e, hz2] at hz
            exact Option.noConfusion hz
          rw [hfin2, dictLookup_dictSet_ne _ _ _ _ hkk] at hrec
          exact hrec

theorem processPage_filter_fst (gettz : String → Zone) (dt : Option Int) :
    ∀ (p : Page) (fin : Dict FinArea),
      (processPage gettz dt fin p).1 =
      (processPage gettz dt fin
        (p.filter (fun e => (dictLookup tzs e.1).isSome))).1 := by
  intro p
  induction p with
  | nil => intro fin; rfl
  | cons entry rest ih =>
    obtain ⟨k, ad⟩ := entry
    intro fin
    cases hz : dictLookup tzs k with
    | none =>
      have hfilter : List.filter (fun e => (dictLookup tzs e.1).isSome)
          ((k, ad) :: rest) =
          rest.filter (fun e => (dictLookup tzs e.1).isSome) := by
        simp [List.filter_cons, hz]
      rw [hfilter]
      rw [show processPage gettz dt fin ((k, ad) :: rest) =
        (let r := processPage gettz dt fin rest; (r.1, (k, ad) :: r.2)) from by
          simp [processPage, processAreaEntry_unknown gettz dt fin k ad hz]]
      exact ih fin
    | some zname =>
      have hfilter : List.filter (fun e => (dictLookup tzs e.1).isSome)
          ((k, ad) :: rest) =
          (k, ad) :: rest.filter (fun e => (dictLookup tzs e.1).isSome) := by
        simp [List.filter_cons, hz]
      rw [hfilter]
      cases hpe : processAreaEntry gettz dt fin k ad with
      | mk r ad1 =>
        cases r with
        | error e => simp [processPage, hpe]
        | ok fin2 =>
          simp only [processPage, hpe]
          exact ih fin2

/-! Whole-merge lemmas. -/

theorem joinPages_ok_lookup_known (gettz : String → Zone) (utc : Int)
    (key zname : String) (hz : dictLookup tzs key = some zname) :
    ∀ (pages : List Page) (fin fin1 : Dict FinArea),
      (joinPages gettz (some utc) fin pages).1 = Except.ok fin1 →
      dictLookup fin1 key =
        List.foldl
          (extendOpt (gettz zname) (sodOf (gettz zname) utc)
            (eodOf (gettz zname) utc))
          (dictLookup fin key) (areaOccs key pages) := by
  intro pages
  induction pages with
  | nil =>
    intro fin fin1 h
    simp only [joinPages] at h
    injection h with h
    subst h
    simp [areaOccs, catLists]
  | cons p ps ih =>
    intro fin fin1 h
    cases hpp : processPage gettz (some utc) fin p with
    | mk r p1 =>
      cases r with
      | error e => simp [joinPages, hpp] at h
      | ok fin2 =>
        simp only [joinPages, hpp] at h
        have hrec := ih fin2 fin1 h
        have hpage := processPage_ok_lookup_known gettz utc key zname hz p fin fin2
          (by rw [hpp])
        have hocc : areaOccs key (p :: ps) = pageOccs key p ++ areaOccs key ps := by
          simp [areaOccs, catLists]
        rw [hrec, hpage, hocc, List.foldl_append]

theorem joinPages_ok_lookup_unknown (gettz : String → Zone) (dt : Option Int)
    (key : String) (hz : dictLookup tzs key = Option.none) :
    ∀ (pages : List Page) (fin fin1 : Dict FinArea),
      (joinPages gettz dt fin pages).1 = Except.ok fin1 →
      dictLookup fin1 key = dictLookup fin key := by
  intro pages
  induction pages with
  | nil =>
    intro fin fin1 h
    simp only [joinPages] at h
    injection h with h
    subst h
    rfl
  | cons p ps ih =>
    intro fin fin1 h
    cases hpp : processPage gettz dt fin p with
    | mk r p1 =>
      cases r with
      | error e => simp [joinPages, hpp] at h
      | ok fin2 =>
        simp only [joinPages, hpp] at h
        have hrec := ih fin2 fin1 h
        have hpage := processPage_ok_lookup_unknown gettz dt key hz p fin fin2
          (by rw [hpp])
        rw [hrec, hpage]

theorem joinPages_filter_fst (gettz : String → Zone) (dt : Option Int) :
    ∀ (pages : List Page) (fin : Dict FinArea),
      (joinPages gettz dt fin pages).1 =
      (joinPages gettz dt fin
        (pages.map (fun p =>
          p.filter (fun e => (dictLookup tzs e.1).isSome)))).1 := by
  intro pages
  induction pages with
  | nil => intro fin; rfl
  | cons p ps ih =>
    intro fin
    rw [List.map_cons]
    cases hpp : processPage gettz dt fin p with
    | mk r p1 =>
      have hflt := processPage_filter_fst gettz dt p fin
      rw [hpp] at hflt
      cases hpp2 : processPage gettz dt fin
          (p.filter (fun e => (dictLookup tzs e.1).isSome)) with
      | mk r2 p2 =>
        rw [hpp2] at hflt
        cases r with
        | error e =>
          cases r2 with
          | error e2 =>
            have he : e = e2 := by injection hflt
            subst he
            simp [joinPages, hpp, hpp2]
          | ok fin2 => exact absurd hflt (by simp)
        | ok fin2 =>
          cases r2 with
          | error e2 => exact absurd hflt (by simp)
          | ok fin2' =>
            have he : fin2 = fin2' := Except.ok.inj hflt
            subst he
            simp only [joinPages, hpp, hpp2]
            exact ih fin2

/-! Extracting the accumulated area entry from the occurrence fold. -/

theorem foldl_extendOpt_some (z : Zone) (s e : LocalDT) :
    ∀ (occs : List AreaData) (fa0 : FinArea),
      List.foldl (extendOpt z s e) (some fa0) occs =
        some ⟨metaFold fa0.meta occs, fa0.values ++ keptCat z s e occs⟩ := by
  intro occs
  induction occs with
  | nil => intro fa0; simp [metaFold, keptCat, catLists]
  | cons ad rest ih =>
    intro fa0
    rw [List.foldl_cons]
    show List.foldl (extendOpt z s e) (some (extendFA z s e fa0 ad)) rest = _
    rw [ih]
    simp [extendFA, metaFold, keptCat, catLists, List.append_assoc]

theorem foldl_extendOpt_none_cons (z : Zone) (s e : LocalDT)
    (ad : AreaData) (rest : List AreaData) :
    List.foldl (extendOpt z s e) Option.none (ad :: rest) =
      some ⟨metaFold [] (ad :: rest), keptCat z s e (ad :: rest)⟩ := by
  rw [List.foldl_cons]
  show List.foldl (extendOpt z s e) (some (extendFA z s e ⟨[], []⟩ ad)) rest = _
  rw [foldl_extendOpt_some]
  simp [extendFA, metaFold, keptCat, catLists]

/-- The ok-case characterisation of one key's entry in the merge result:
unknown keys are absent, and a known key's entry is the fold of its
occurrences (or absent when it never occurs). -/
theorem join_ok_char (gettz : String → Zone) (utc : Int) (results : List Page)
    (fin1 : Dict FinArea)
    (h : (join_result_for_correct_time gettz results (some utc)).1 = Except.ok fin1)
    (key : String) :
    (dictLookup tzs key = Option.none → dictLookup fin1 key = Option.none) ∧
    (∀ zname, dictLookup tzs key = some zname →
      (areaOccs key results = [] → dictLookup fin1 key = Option.none) ∧
      ∀ ad rest, areaOccs key results = ad :: rest →
        dictLookup fin1 key =
          some ⟨metaFold [] (ad :: rest),
                keptCat (gettz zname) (sodOf (gettz zname) utc)
                  (eodOf (gettz zname) utc) (ad :: rest)⟩) := by
  constructor
  · intro hz
    exact joinPages_ok_lookup_unknown gettz (some utc) key hz results [] fin1 h
  · intro zname hz
    have hchar := joinPages_ok_lookup_known gettz utc key zname hz results [] fin1 h
    constructor
    · intro hocc
      rw [hocc] at hchar
      exact hchar
    · intro ad rest hocc
      rw [hocc] at hchar
      rw [hchar]
      exact foldl_extendOpt_none_cons _ _ _ ad rest

/-! Lemmas for the invalid-value failure mode. -/

theorem processPage_ok_noInvalid (gettz : String → Zone) (utc : Int) :
    ∀ (p : Page) (fin fin1 : Dict FinArea),
      (processPage gettz (some utc) fin p).1 = Except.ok fin1 →
      ∀ k ad, (k, ad) ∈ p → ∀ zname, dictLookup tzs k = some zname →
      ∀ vs, ad.values = some vs → ∀ v ∈ vs,
        inRangeb (gettz zname) (sodOf (gettz zname) utc)
          (eodOf (gettz zname) utc) v = true →
        isInvalid v.value = false := by
  intro p
  induction p with
  | nil =>
    intro fin fin1 _ k ad hmem
    simp at hmem
  | cons entry rest ih =>
    obtain ⟨k1, ad1⟩ := entry
    intro fin fin1 h k ad hmem zname hz vs hvs v hv hr
    cases hpe : processAreaEntry gettz (some utc) fin k1 ad1 with
    | mk r ad2 =>
      cases r with
      | error e => simp [processPage, hpe] at h
      | ok fin2 =>
        simp only [processPage, hpe] at h
        rcases List.mem_cons.mp hmem with heq | hmem'
        · obtain ⟨hk, had⟩ := Prod.mk.injEq .. ▸ heq
          subst hk
          subst had
          rcases processAreaEntry_ok_inv gettz (some utc) fin k ad fin2 ad2 hpe with
            ⟨hznone, _, _⟩ | ⟨zname2, vs2, utc2, kept, hz2, hv2, hdt, hf, _, _⟩
          · rw [hz] at hznone
            exact Option.noConfusion hznone
          · rw [hz] at hz2
            injection hz2 with hzeq
            subst hzeq
            injection hdt with hdteq
            subst hdteq
            rw [hvs] at hv2
            injection hv2 with hveq
            subst hveq
            exact (filterValues_ok (gettz zname) _ _ vs kept hf).2 v hv hr
        · exact ih fin2 fin1 h k ad hmem' zname hz vs hvs v hv hr

theorem joinPages_ok_noInvalid (gettz : String → Zone) (utc : Int) :
    ∀ (pages : List Page) (fin fin1 : Dict FinArea),
      (joinPages gettz (some utc) fin pages).1 = Except.ok fin1 →
      ∀ p ∈ pages, ∀ k ad, (k, ad) ∈ p → ∀ zname, dictLookup tzs k = some zname →
      ∀ vs, ad.values = some vs → ∀ v ∈ vs,
        inRangeb (gettz zname) (sodOf (gettz zname) utc)
          (eodOf (gettz zname) utc) v = true →
        isInvalid v.value = false := by
  intro pages
  induction pages with
  | nil =>
    intro fin fin1 _ p hp
    simp at hp
  | cons q ps ih =>
    intro fin fin1 h p hp k ad hmem zname hz vs hvs v hv hr
    cases hpp : processPage gettz (some utc) fin q with
    | mk r p1 =>
      cases r with
      | error e => simp [joinPages, hpp] at h
      | ok fin2 =>
        simp only [joinPages, hpp] at h
        rcases List.mem_cons.mp hp with heq | hp'
        · subst heq
          exact processPage_ok_noInvalid gettz utc p fin fin2 (by rw [hpp])
            k ad hmem zname hz vs hvs v hv hr
        · exact ih fin2 fin1 h p hp' k ad hmem zname hz vs hvs v hv hr

theorem processPage_error_kind (gettz : String → Zone) (utc : Int) :
    ∀ (p : Page) (fin : Dict FinArea) (e : MergeError),
      (processPage gettz (some utc) fin p).1 = Except.error e →
      (∀ ent ∈ p, (ent : String × AreaData).2.values.isSome = true) →
      e = MergeError.invalidValue := by
  intro p
  induction p with
  | nil =>
    intro fin e h
    simp [processPage] at h
  | cons entry rest ih =>
    obtain ⟨k1, ad1⟩ := entry
    intro fin e h hwf
    cases hpe : processAreaEntry gettz (some utc) fin k1 ad1 with
    | mk r ad2 =>
      cases r with
      | error e2 =>
        simp only [processPage, hpe] at h
        injection h with heq
        subst heq
        rcases processAreaEntry_error_inv gettz (some utc) fin k1 ad1 e2 ad2 hpe with
          ⟨_, hvnone⟩ | ⟨_, hdt⟩ | hinv
        · have := hwf (k1, ad1) (List.mem_cons_self _ _)
          rw [hvnone] at this
          simp at this
        · exact Option.noConfusion hdt
        · exact hinv
      | ok fin2 =>
        simp only [processPage, hpe] at h
        exact ih fin2 e h (fun ent hent => hwf ent (List.mem_cons_of_mem _ hent))

theorem joinPages_error_kind (gettz : String → Zone) (utc : Int) :
    ∀ (pages : List Page) (fin : Dict FinArea) (e : MergeError),
      (joinPages gettz (some utc) fin pages).1 = Except.error e →
      (∀ p ∈ pages, ∀ ent ∈ p, (ent : String × AreaData).2.values.isSome = true) →
      e = MergeError.invalidValue := by
  intro pages
  induction pages with
  | nil =>
    intro fin e h
    simp [joinPages] at h
  | cons q ps ih =>
    intro fin e h hwf
    cases hpp : processPage gettz (some utc) fin q with
    | mk r p1 =>
      cases r with
      | error e2 =>
        simp only [joinPages, hpp] at h
        injection h with heq
        subst heq
        exact processPage_error_kind gettz utc q fin e2 (by rw [hpp])
          (hwf q (List.mem_cons_self _ _))
      | ok fin2 =>
        simp only [joinPages, hpp] at h
        exact ih fin2 e h (fun p hp => hwf p (List.mem_cons_of_mem _ hp))

/-! Lemmas for the in-place mutation of the input pages. -/

theorem processAreaEntry_ok_mutate (gettz : String → Zone) (dt : Option Int)
    (fin : Dict FinArea) (k : String) (ad : AreaData)
    (fin2 : Dict FinArea) (ad1 : AreaData)
    (h : processAreaEntry gettz dt fin k ad = (Except.ok fin2, ad1)) :
    (k, ad1) = mutateEntry (k, ad) := by
  rcases processAreaEntry_ok_inv gettz dt fin k ad fin2 ad1 h with
    ⟨hznone, _, had⟩ | ⟨zname, vs, utc, kept, hz, _, _, _, _, had⟩
  · subst had
    simp [mutateEntry, hznone]
  · subst had
    simp [mutateEntry, hz]

theorem processPage_ok_mutate (gettz : String → Zone) (dt : Option Int) :
    ∀ (p : Page) (fin fin1 : Dict FinArea),
      (processPage gettz dt fin p).1 = Except.ok fin1 →
      (processPage gettz dt fin p).2 = p.map mutateEntry := by
  intro p
  induction p with
  | nil => intro fin fin1 _; rfl
  | cons entry rest ih =>
    obtain ⟨k, ad⟩ := entry
    intro fin fin1 h
    cases hpe : processAreaEntry gettz dt fin k ad with
    | mk r ad1 =>
      cases r with
      | error e => simp [processPage, hpe] at h
      | ok fin2 =>
        simp only [processPage, hpe] at h ⊢
        rw [List.map_cons, ih fin2 fin1 h,
          ← processAreaEntry_ok_mutate gettz dt fin k ad fin2 ad1 hpe]

theorem joinPages_ok_mutate (gettz : String → Zone) (dt : Option Int) :
    ∀ (pages : List Page) (fin fin1 : Dict FinArea),
      (joinPages gettz dt fin pages).1 = Except.ok fin1 →
      (joinPages gettz dt fin pages).2 =
        pages.map (fun p => p.map mutateEntry) := by
  intro pages
  induction pages with
  | nil => intro fin fin1 _; rfl
  | cons p ps ih =>
    intro fin fin1 h
    cases hpp : processPage gettz dt fin p with
    | mk r p1 =>
      cases r with
      | error e => simp [joinPages, hpp] at h
      | ok fin2 =>
        simp only [joinPages, hpp] at h ⊢
        have hpage : p1 = p.map mutateEntry := by
          have := processPage_ok_mutate gettz dt p fin fin2 (by rw [hpp])
          rw [hpp] at this
          exact this
        rw [List.map_cons, hpage, ih fin2 fin1 h]

theorem processPage_error_char (gettz : String → Zone) (dt : Option Int) :
    ∀ (p : Page) (fin : Dict FinArea) (e : MergeError),
      (processPage gettz dt fin p).1 = Except.error e →
      ∃ pd k ad pending,
        p = pd ++ (k, ad) :: pending ∧
        (dictLookup tzs k).isSome = true ∧
        (processPage gettz dt fin p).2 =
          pd.map mutateEntry ++ mutateEntry (k, ad) :: pending := by
  intro p
  induction p with
  | nil =>
    intro fin e h
    simp [processPage] at h
  | cons entry rest ih =>
    obtain ⟨k1, ad1⟩ := entry
    intro fin e h
    cases hpe : processAreaEntry gettz dt fin k1 ad1 with
    | mk r ad2 =>
      cases r with
      | error e2 =>
        cases hz : dictLookup tzs k1 with
        | none =>
          rw [processAreaEntry_unknown gettz dt fin k1 ad1 hz] at hpe
          exact absurd (congrArg Prod.fst hpe) (by simp)
        | some zname =>
          have hsnd : ad2 = ⟨add_junk ad1.meta, Option.none⟩ := by
            have := processAreaEntry_known_snd gettz dt fin k1 ad1 zname hz
            rw [hpe] at this
            exact this
          refine ⟨[], k1, ad1, rest, rfl, by simp [hz], ?_⟩
          have hmut : mutateEntry (k1, ad1) = (k1, ad2) := by
            simp [mutateEntry, hz, hsnd]
          simp only [processPage, hpe, hmut]
          rfl
      | ok fin2 =>
        simp only [processPage, hpe] at h
        obtain ⟨pd, k, ad, pending, hrest, hks, hp2⟩ := ih fin2 e h
        refine ⟨(k1, ad1) :: pd, k, ad, pending, ?_, hks, ?_⟩
        · rw [hrest]
          rfl
        · have hmut : mutateEntry (k1, ad1) = (k1, ad2) :=
            (processAreaEntry_ok_mutate gettz dt fin k1 ad1 fin2 ad2 hpe).symm
          simp only [processPage, hpe, List.map_cons, hmut]
          rw [hp2]
          rfl

theorem joinPages_error_char (gettz : String → Zone) (dt : Option Int) :
    ∀ (pages : List Page) (fin : Dict FinArea) (e : MergeError),
      (joinPages gettz dt fin pages).1 = Except.error e →
      ∃ done pd k ad pending rest,
        pages = done ++ (pd ++ (k, ad) :: pending) :: rest ∧
        (dictLookup tzs k).isSome = true ∧
        (joinPages gettz dt fin pages).2 =
          done.map (fun p => p.map mutateEntry) ++
          (pd.map mutateEntry ++ mutateEntry (k, ad) :: pending) :: rest := by
  intro pages
  induction pages with
  | nil =>
    intro fin e h
    simp [joinPages] at h
  | cons p ps ih =>
    intro fin e h
    cases hpp : processPage gettz dt fin p with
    | mk r p1 =>
      cases r with
      | error e2 =>
        obtain ⟨pd, k, ad, pending, hp, hks, hp1⟩ :=
          processPage_error_char gettz dt p fin e2 (by rw [hpp])
        rw [hpp] at hp1
        have hp2 : p1 = List.map mutateEntry pd ++ mutateEntry (k, ad) :: pending :=
          hp1
        refine ⟨[], pd, k, ad, pending, ps, ?_, hks, ?_⟩
        · rw [hp]
          rfl
        · simp only [joinPages, hpp]
          rw [hp2]
          rfl
      | ok fin2 =>
        simp only [joinPages, hpp] at h
        obtain ⟨done, pd, k, ad, pending, rest, hps, hks, hps2⟩ :=
          ih fin2 e h
        have hpage : p1 = p.map mutateEntry := by
          have := processPage_ok_mutate gettz dt p fin fin2 (by rw [hpp])
          rw [hpp] at this
          exact this
        refine ⟨p :: done, pd, k, ad, pending, rest, ?_, hks, ?_⟩
        · rw [hps]
          rfl
        · simp only [joinPages, hpp, List.map_cons]
          rw [hps2, hpage]
          rfl

/-! Membership facts about kept records. -/

theorem mem_keptCat (z : Zone) (s e : LocalDT) (occs : List AreaData)
    (v : PriceRecord) (hv : v ∈ keptCat z s e occs) :
    keepb z s e v = true := by
  rw [keptCat, mem_catLists] at hv
  obtain ⟨l, hl, hvl⟩ := hv
  obtain ⟨ad, _, hlad⟩ := List.mem_map.mp hl
  subst hlad
  exact (List.mem_filter.mp hvl).2

theorem keepb_inRange (z : Zone) (s e : LocalDT) (v : PriceRecord)
    (h : keepb z s e v = true) : inRangeb z s e v = true :=
  (Bool.and_eq_true_iff.mp h).1

theorem keepb_ne (z : Zone) (s e : LocalDT) (v : PriceRecord)
    (h : keepb z s e v = true) : z v.start ≠ z v.end_ := by
  have h2 := (Bool.and_eq_true_iff.mp h).2
  intro heq
  rw [heq] at h2
  simp at h2

/-! The claims. -/

/-- C1: for every area with a known time zone, every record appended to that
area's output values list by the merge has a local start time between the
start-of-day bound (local 00:00:00.000000) and the end-of-day bound (local
23:59:59.999999) of the calendar day obtained by converting the reference
instant to that area's zone; records whose local start falls outside these
bounds are never included. -/
theorem C1_output_within_local_day (gettz : String → Zone) (utc : Int)
    (results : List Page) (fin1 : Dict FinArea) (pages1 : List Page)
    (h : join_result_for_correct_time gettz results (some utc) =
      (Except.ok fin1, pages1))
    (key : String) (fa : FinArea) (hfa : dictLookup fin1 key = some fa) :
    ∃ zname, dictLookup tzs key = some zname ∧
      ∀ v ∈ fa.values,
        LocalDT.leb (sodOf (gettz zname) utc) (gettz zname v.start) = true ∧
        LocalDT.leb (gettz zname v.start) (eodOf (gettz zname) utc) = true := by
  have h1 : (join_result_for_correct_time gettz results (some utc)).1 =
      Except.ok fin1 := by rw [h]
  obtain ⟨hunk, hkn⟩ := join_ok_char gettz utc results fin1 h1 key
  cases hz : dictLookup tzs key with
  | none =>
    rw [hunk hz] at hfa
    exact Option.noConfusion hfa
  | some zname =>
    refine ⟨zname, rfl, ?_⟩
    obtain ⟨hnil, hcons⟩ := hkn zname hz
    cases hocc : areaOccs key results with
    | nil =>
      rw [hnil hocc] at hfa
      exact Option.noConfusion hfa
    | cons ad rest =>
      rw [hcons ad rest hocc] at hfa
      injection hfa with hfa
      intro v hv
      rw [← hfa] at hv
      have hkeep := mem_keptCat _ _ _ _ v hv
      have hr := keepb_inRange _ _ _ v hkeep
      exact Bool.and_eq_true_iff.mp hr

/-- C1 witness: at a concrete zone database, reference instant and one-page
input the merge succeeds and the theorem yields the bounds for SE1's
records. -/
theorem C1_witness :
    ∃ zname, dictLookup tzs "SE1" = some zname ∧
      ∀ v ∈ testFA.values,
        LocalDT.leb (sodOf (testGettz zname) 12) (testGettz zname v.start) = true ∧
        LocalDT.leb (testGettz zname v.start) (eodOf (testGettz zname) 12) = true :=
  C1_output_within_local_day testGettz 12 [testPage] testFin testOut.2 rfl
    "SE1" testFA rfl

/-- C5: no record in any output values list has identical local start and
local end times: every in-range record whose start converted to the area's
zone equals its end converted to that zone (a DST anomaly hour) is excluded
from the output series. -/
theorem C5_no_dst_anomaly_in_output (gettz : String → Zone) (utc : Int)
    (results : List Page) (fin1 : Dict FinArea) (pages1 : List Page)
    (h : join_result_for_correct_time gettz results (some utc) =
      (Except.ok fin1, pages1))
    (key : String) (fa : FinArea) (hfa : dictLookup fin1 key = some fa) :
    ∃ zname, dictLookup tzs key = some zname ∧
      ∀ v ∈ fa.values, gettz zname v.start ≠ gettz zname v.end_ := by
  have h1 : (join_result_for_correct_time gettz results (some utc)).1 =
      Except.ok fin1 := by rw [h]
  obtain ⟨hunk, hkn⟩ := join_ok_char gettz utc results fin1 h1 key
  cases hz : dictLookup tzs key with
  | none =>
    rw [hunk hz] at hfa
    exact Option.noConfusion hfa
  | some zname =>
    refine ⟨zname, rfl, ?_⟩
    obtain ⟨hnil, hcons⟩ := hkn zname hz
    cases hocc : areaOccs key results with
    | nil =>
      rw [hnil hocc] at hfa
      exact Option.noConfusion hfa
    | cons ad rest =>
      rw [hcons ad rest hocc] at hfa
      injection hfa with hfa
      intro v hv
      rw [← hfa] at hv
      exact keepb_ne _ _ _ v (mem_keptCat _ _ _ _ v hv)

/-- C5 witness: the theorem applied at the concrete one-page input. -/
theorem C5_witness :
    ∃ zname, dictLookup tzs "SE1" = some zname ∧
      ∀ v ∈ testFA.values, testGettz zname v.start ≠ testGettz zname v.end_ :=
  C5_no_dst_anomaly_in_output testGettz 12 [testPage] testFin testOut.2 rfl
    "SE1" testFA rfl

/-- C2 counterexample: three raw pages each containing area SE1 with the
same in-range hour record; the merged output's values list contains that
qualifying hour three times, not exactly once. -/
theorem C2_counterexample :
    cexOut.1 = Except.ok cexFin ∧
    List.count rec1 cexFA.values = 3 ∧ List.count rec1 cexFA.values ≠ 1 :=
  ⟨rfl, rfl, by decide⟩

/-- C2 as amended: the merge performs no cross-page deduplication — the
output values list for a known-zone area is the concatenation, over the
pages in order, of each page occurrence's qualifying records, so a
qualifying hour appears once per page occurrence and appears exactly once
overall only when the three pages do not repeat it. -/
theorem C2_values_concat_no_dedup (gettz : String → Zone) (utc : Int)
    (results : List Page) (fin1 : Dict FinArea) (pages1 : List Page)
    (h : join_result_for_correct_time gettz results (some utc) =
      (Except.ok fin1, pages1))
    (key zname : String) (hz : dictLookup tzs key = some zname)
    (fa : FinArea) (hfa : dictLookup fin1 key = some fa) :
    fa.values = keptCat (gettz zname) (sodOf (gettz zname) utc)
      (eodOf (gettz zname) utc) (areaOccs key results) := by
  have h1 : (join_result_for_correct_time gettz results (some utc)).1 =
      Except.ok fin1 := by rw [h]
  obtain ⟨hnil, hcons⟩ := (join_ok_char gettz utc results fin1 h1 key).2 zname hz
  cases hocc : areaOccs key results with
  | nil =>
    rw [hnil hocc] at hfa
    exact Option.noConfusion hfa
  | cons ad rest =>
    rw [hcons ad rest hocc] at hfa
    injection hfa with hfa
    rw [← hfa]

/-- C2 witness: the amended theorem applied at the three-identical-pages
input, exhibiting the concatenated (duplicated) output. -/
theorem C2_witness :
    cexFA.values = keptCat (testGettz "Europe/Stockholm")
      (sodOf (testGettz "Europe/Stockholm") 12)
      (eodOf (testGettz "Europe/Stockholm") 12)
      (areaOccs "SE1" [cexPage, cexPage, cexPage]) :=
  C2_values_concat_no_dedup testGettz 12 [cexPage, cexPage, cexPage]
    cexFin cexOut.2 rfl "SE1" "Europe/Stockholm" rfl cexFA rfl

/-- C4 counterexample: three pages carry the same non-junk metadata key
`Unit` for SE1 with values A, B, C; after the merge the key holds the last
page's value C, not the first page's value A — metadata keys already
present are overwritten by later pages. -/
theorem C4_counterexample :
    c4Out.1 = Except.ok c4Fin ∧
    dictLookup c4FA.meta "Unit" = some (MetaVal.str "C") ∧
    some (MetaVal.str "C") ≠ some (MetaVal.str "A") :=
  ⟨rfl, rfl, by decide⟩

/-- C4 as amended: for each area the merge applies dict-update semantics to
metadata — every page occurrence's (junk-stamped) metadata is folded in
with later pages overwriting already-present keys (last-page-wins), while
the values lists from all pages accumulate into one concatenated list. -/
theorem C4_meta_update_last_wins (gettz : String → Zone) (utc : Int)
    (results : List Page) (fin1 : Dict FinArea) (pages1 : List Page)
    (h : join_result_for_correct_time gettz results (some utc) =
      (Except.ok fin1, pages1))
    (key zname : String) (hz : dictLookup tzs key = some zname)
    (fa : FinArea) (hfa : dictLookup fin1 key = some fa) :
    fa.meta = metaFold [] (areaOccs key results) ∧
    fa.values = keptCat (gettz zname) (sodOf (gettz zname) utc)
      (eodOf (gettz zname) utc) (areaOccs key results) := by
  have h1 : (join_result_for_correct_time gettz results (some utc)).1 =
      Except.ok fin1 := by rw [h]
  obtain ⟨hnil, hcons⟩ := (join_ok_char gettz utc results fin1 h1 key).2 zname hz
  cases hocc : areaOccs key results with
  | nil =>
    rw [hnil hocc] at hfa
    exact Option.noConfusion hfa
  | cons ad rest =>
    rw [hcons ad rest hocc] at hfa
    injection hfa with hfa
    rw [← hfa]
    exact ⟨rfl, rfl⟩

/-- C4 witness: the amended theorem applied at the concrete three-page
input of the counterexample. -/
theorem C4_witness :
    c4FA.meta = metaFold [] (areaOccs "SE1" [c4Page1, c4Page2, c4Page3]) ∧
    c4FA.values = keptCat (testGettz "Europe/Stockholm")
      (sodOf (testGettz "Europe/Stockholm") 12)
      (eodOf (testGettz "Europe/Stockholm") 12)
      (areaOccs "SE1" [c4Page1, c4Page2, c4Page3]) :=
  C4_meta_update_last_wins testGettz 12 [c4Page1, c4Page2, c4Page3]
    c4Fin c4Out.2 rfl "SE1" "Europe/Stockholm" rfl c4FA rfl

/-- C3: for every merge input whose pages all carry their `values` key (the
page-parser contract) and which contains a record with the invalid sentinel
(`None` or positive infinity) whose local start falls inside the target
local day of a known-zone area, the merge fails with the invalid-value
error — the caller receives no partial result — and the raised exception is
not among the kinds the fetch retry decorator retries. -/
theorem C3_invalid_value_fails_merge (gettz : String → Zone) (utc : Int)
    (results : List Page) (hwf : wellFormedPages results)
    (p : Page) (hp : p ∈ results) (key : String) (ad : AreaData)
    (hk : (key, ad) ∈ p) (zname : String)
    (hz : dictLookup tzs key = some zname)
    (vs : List PriceRecord) (hvs : ad.values = some vs)
    (v : PriceRecord) (hv : v ∈ vs)
    (hr : inRangeb (gettz zname) (sodOf (gettz zname) utc)
      (eodOf (gettz zname) utc) v = true)
    (hi : isInvalid v.value = true) :
    (join_result_for_correct_time gettz results (some utc)).1 =
      Except.error MergeError.invalidValue ∧
    backoffRetries (raisedException MergeError.invalidValue) = false := by
  constructor
  · cases hres : (join_result_for_correct_time gettz results (some utc)).1 with
    | ok fin1 =>
      have hno := joinPages_ok_noInvalid gettz utc results [] fin1 hres
        p hp key ad hk zname hz vs hvs v hv hr
      rw [hi] at hno
      exact Bool.noConfusion hno
    | error e =>
      rw [joinPages_error_kind gettz utc results [] e hres hwf]
  · rfl

/-- C3 witness: the theorem applied at a one-page input whose SE1 record
carries the `None` sentinel inside the local day. -/
theorem C3_witness :
    (join_result_for_correct_time testGettz [c3Page] (some 12)).1 =
      Except.error MergeError.invalidValue ∧
    backoffRetries (raisedException MergeError.invalidValue) = false :=
  C3_invalid_value_fails_merge testGettz 12 [c3Page]
    (by unfold wellFormedPages; decide)
    c3Page (by decide) "SE1"
    ⟨[("Unit", MetaVal.str "EUR")], some [⟨5, 6, Value.null⟩]⟩ (by decide)
    "Europe/Stockholm" rfl [⟨5, 6, Value.null⟩] rfl ⟨5, 6, Value.null⟩
    (by decide) (by decide) rfl

/-- C6: an area code absent from the time-zone registry is skipped: the
merge's returned value (result or raised error) is the same as on the input
with every unknown-zone entry removed, and on success the unknown area does
not appear in the result. -/
theorem C6_unknown_area_skipped (gettz : String → Zone) (dt : Option Int)
    (results : List Page) :
    ((join_result_for_correct_time gettz results dt).1 =
      (join_result_for_correct_time gettz
        (results.map (fun p =>
          p.filter (fun e => (dictLookup tzs e.1).isSome))) dt).1) ∧
    ∀ key fin1 pages1, dictLookup tzs key = Option.none →
      join_result_for_correct_time gettz results dt = (Except.ok fin1, pages1) →
      dictLookup fin1 key = Option.none := by
  constructor
  · exact joinPages_filter_fst gettz dt results []
  · intro key fin1 pages1 hz h
    have h1 : (join_result_for_correct_time gettz results dt).1 =
        Except.ok fin1 := by rw [h]
    exact joinPages_ok_lookup_unknown gettz dt key hz results [] fin1 h1

/-- C6 witness: the theorem applied at a page holding the unknown area XX
beside the known area SE1. -/
theorem C6_witness :
    ((join_result_for_correct_time testGettz [mixPage] (some 12)).1 =
      (join_result_for_correct_time testGettz
        ([mixPage].map (fun p =>
          p.filter (fun e => (dictLookup tzs e.1).isSome))) (some 12)).1) ∧
    dictLookup mixFin "XX" = Option.none :=
  ⟨(C6_unknown_area_skipped testGettz (some 12) [mixPage]).1,
   (C6_unknown_area_skipped testGettz (some 12) [mixPage]).2 "XX" mixFin
     mixOut.2 rfl rfl⟩

/-- C7 counterexample: the normalizer maps the period-grouped input
"1.234,56" to the invalid sentinel (positive infinity), not to 1234.56,
because only commas and spaces are rewritten and `float("1.234.56")`
raises. -/
theorem C7_counterexample :
    _conv_to_float "1.234,56" = Value.inf ∧
    Value.inf ≠ Value.num (mkRat 123456 100) :=
  ⟨rfl, by decide⟩

/-- C7 as amended: the normalizer satisfies the test values on inputs in
the upstream's space-grouped comma-decimal format: it maps "1 234,56" to
1234.56 and "abc" to positive infinity. -/
theorem C7_amended_test_values :
    _conv_to_float "1 234,56" = Value.num (mkRat 123456 100) ∧
    _conv_to_float "abc" = Value.inf :=
  ⟨by decide, rfl⟩

/-- C8: the numeric normalizer is total on parse failure: whenever the
normalized input fails to parse as a Python float, the result is positive
infinity rather than a raised error. -/
theorem C8_parse_failure_yields_inf (s : String)
    (h : pyFloat (removeChar ' ' (replaceChar ',' '.' s.data)) = Option.none) :
    _conv_to_float s = Value.inf := by
  simp only [_conv_to_float, h]

/-- C8 witness: the theorem applied at the unparseable input "abc". -/
theorem C8_witness :
    pyFloat (removeChar ' ' (replaceChar ',' '.' ("abc").data)) = Option.none ∧
    _conv_to_float "abc" = Value.inf :=
  ⟨rfl, C8_parse_failure_yields_inf "abc" rfl⟩

/-- C9 (code bug): when the caller omits the reference instant, `fetch`
forwards `None` into the merge instead of defaulting it to tomorrow, so on
any input containing a known-zone area the first `utc.astimezone(zone)`
raises `AttributeError` rather than returning a merge result. -/
theorem C9_missing_reference_instant_crashes :
    (fetch_merge testGettz [testPage] Option.none).1 =
      Except.error MergeError.attributeError := rfl

/-- C10: the merge mutates its input pages in place.  On success every
known-zone area entry of every page ends junk-stamped with its `values` key
removed (`mutateEntry`; unknown-zone entries untouched).  When the merge
aborts with an error, the final page state is exactly the input with every
entry processed up to and including the (known-zone) failing entry mutated
and everything after it untouched — the mutation of already-processed pages
persists and the input is not restored on failure. -/
theorem C10_merge_mutates_input (gettz : String → Zone) (dt : Option Int)
    (results : List Page) :
    (∀ fin1, (join_result_for_correct_time gettz results dt).1 = Except.ok fin1 →
      (join_result_for_correct_time gettz results dt).2 =
        results.map (fun p => p.map mutateEntry)) ∧
    (∀ e, (join_result_for_correct_time gettz results dt).1 = Except.error e →
      ∃ done pd k ad pending rest,
        results = done ++ (pd ++ (k, ad) :: pending) :: rest ∧
        (dictLookup tzs k).isSome = true ∧
        (join_result_for_correct_time gettz results dt).2 =
          done.map (fun p => p.map mutateEntry) ++
          (pd.map mutateEntry ++ mutateEntry (k, ad) :: pending) :: rest) := by
  constructor
  · intro fin1 h
    exact joinPages_ok_mutate gettz dt results [] fin1 h
  · intro e h
    exact joinPages_error_char gettz dt results [] e h

/-- C10 witness: the theorem applied at a succeeding input (all entries
mutated) and at an input aborting at the second entry of its second page —
the first page and the preceding entry stay mutated past the invalid-value
failure while the pending entry keeps its `values` key. -/
theorem C10_witness :
    ((join_result_for_correct_time testGettz [testPage] (some 12)).2 =
      [testPage].map (fun p => p.map mutateEntry)) ∧
    abort2Out.1 = Except.error MergeError.invalidValue ∧
    (∃ done pd k ad pending rest,
      abort2Pages = done ++ (pd ++ (k, ad) :: pending) :: rest ∧
      (dictLookup tzs k).isSome = true ∧
      abort2Out.2 = done.map (fun p => p.map mutateEntry) ++
        (pd.map mutateEntry ++ mutateEntry (k, ad) :: pending) :: rest) ∧
    abort2Out.2 =
      [[("FI", ⟨add_junk [("Unit", MetaVal.str "EUR")], Option.none⟩)],
       [("SE1", ⟨add_junk [("Unit", MetaVal.str "EUR")], Option.none⟩),
        ("DK1", ⟨add_junk [], Option.none⟩),
        ("EE", ⟨[], some [rec1]⟩)]] :=
  ⟨(C10_merge_mutates_input testGettz (some 12) [testPage]).1 testFin rfl,
   rfl,
   (C10_merge_mutates_input testGettz (some 12) abort2Pages).2
     MergeError.invalidValue rfl,
   rfl⟩

end Nordpool
